import Mathlib

/-!
Verification of `vite-plugin-app-version` (src/src/index.ts, src/src/helper.ts).

The plugin collects version metadata (git describe output, commit hash,
package.json version, build timestamp, Vite mode), projects a configured
subset of fields plus user-supplied extra fields into a JSON object,
serializes it pretty-printed with a trailing newline, and

  * emits it as a build asset (`generateBundle`),
  * serves it from the dev server with weak-ETag conditional delivery
    (`configureServer`),
  * exposes it through a virtual module whose code also provides a
    `checkVersion` update check and an `onCheck` listener registry.

External collaborators (git subprocesses, the filesystem, `Date`, `fetch`,
`JSON.parse` in the browser, and the `node:crypto` digests) are modelled as
explicit inputs: each fallible lookup is an `Option`, the digests are
function parameters, and the filesystem is an association list.
-/

namespace AppVersion

/-- JSON values appearing in the version artifact: strings and null
(`commitShort`/`pkgVersion` may be `null`, every other produced field is a
string). -/
inductive JVal where
  | jstr (s : String)
  | jnull
deriving DecidableEq

/-- A JavaScript object, modelled as its ordered list of own enumerable
properties (insertion order, the order `JSON.stringify` serializes). -/
abbrev JObj := List (String × JVal)

/-- Lowercase hexadecimal digit, as produced by JSON string escaping. -/
def hexDigit (n : Nat) : Char :=
  if n < 10 then Char.ofNat (48 + n) else Char.ofNat (87 + n)

/-- JSON escaping of one character, following `JSON.stringify`
(ECMA-262 QuoteJSONString): quote and backslash are backslash-escaped,
the five control shorthands are used, remaining control characters become
`\u00XX`, everything else is copied verbatim. -/
def escChar (c : Char) : List Char :=
  if c = '"' then ['\\', '"']
  else if c = '\\' then ['\\', '\\']
  else if c = '\x08' then ['\\', 'b']
  else if c = '\t' then ['\\', 't']
  else if c = '\n' then ['\\', 'n']
  else if c = '\x0c' then ['\\', 'f']
  else if c = '\r' then ['\\', 'r']
  else if c.toNat < 32 then
    ['\\', 'u', '0', '0', hexDigit (c.toNat / 16), hexDigit (c.toNat % 16)]
  else [c]

/-- JSON escaping of a character list. -/
def escList : List Char → List Char
  | [] => []
  | c :: cs => escChar c ++ escList cs

/-- JSON escaping of a string. -/
def escape (s : String) : String := ⟨escList s.data⟩

/-- A JSON string literal: `"` ++ escaped content ++ `"`. -/
def quoteStr (s : String) : String := "\"" ++ escape s ++ "\""

/-- Serialization of a single JSON value. -/
def serVal : JVal → String
  | .jstr s => quoteStr s
  | .jnull => "null"

/-- `Array.prototype.join(",")`. -/
def joinComma : List String → String
  | [] => ""
  | [x] => x
  | x :: xs => x ++ "," ++ joinComma xs

/-- `Array.prototype.join(",\n")`. -/
def joinCommaNl : List String → String
  | [] => ""
  | [x] => x
  | x :: xs => x ++ ",\n" ++ joinCommaNl xs

/-- `JSON.stringify(o)` (compact form) for a flat object. -/
def stringifyCompact (o : JObj) : String :=
  "\x7b" ++ joinComma (o.map fun p => quoteStr p.1 ++ ":" ++ serVal p.2) ++ "\x7d"

/-- `JSON.stringify(o, null, 2)` (two-space indent) for a flat object.
An empty object prints as `{}` with no inner newline. -/
def stringifyPretty (o : JObj) : String :=
  if o.isEmpty then "\x7b\x7d"
  else
    "\x7b\n" ++
      joinCommaNl (o.map fun p => "  " ++ quoteStr p.1 ++ ": " ++ serVal p.2)
      ++ "\n\x7d"

/-- The full snapshot collected by `collectVersion` (type `FullInfo` in
index.ts); `commitShort` and `pkgVersion` are `string | null`. -/
structure FullInfo where
  version : String
  commitShort : Option String
  pkgVersion : Option String
  buildTime : String
  mode : String
deriving DecidableEq

/-- The statically known field names of `FullInfo` (`keyof FullInfo`). -/
inductive FieldName where
  | version | commitShort | pkgVersion | buildTime | mode
deriving DecidableEq

/-- The JSON key a field is published under. -/
def fieldKey : FieldName → String
  | .version => "version"
  | .commitShort => "commitShort"
  | .pkgVersion => "pkgVersion"
  | .buildTime => "buildTime"
  | .mode => "mode"

/-- The JSON value of a snapshot field (`null`-able fields become `jnull`
when absent, exactly as `JSON.stringify` renders a `null` property). -/
def fieldVal (full : FullInfo) : FieldName → JVal
  | .version => .jstr full.version
  | .commitShort => (full.commitShort.map JVal.jstr).getD .jnull
  | .pkgVersion => (full.pkgVersion.map JVal.jstr).getD .jnull
  | .buildTime => .jstr full.buildTime
  | .mode => .jstr full.mode

/-- The keys of a modelled object. -/
def jsKeys (o : JObj) : List String := o.map Prod.fst

/-- `out[k] = v` on a JavaScript object: an existing property keeps its
position and gets the new value, a new property is appended. -/
def jsInsert (o : JObj) (k : String) (v : JVal) : JObj :=
  if k ∈ jsKeys o then o.map fun p => if p.1 = k then (p.1, v) else p
  else o ++ [(k, v)]

/-- Property-by-property extension (the object-spread `\x7b...a, ...b\x7d`
copies `b`'s properties into the literal in order). -/
def jsExtend (o : JObj) (ps : JObj) : JObj :=
  ps.foldl (fun acc p => jsInsert acc p.1 p.2) o

/-- `pickFields(obj, keys)` from index.ts: starts from `\x7b\x7d` and runs
`out[k] = obj[k]` over the key list in order. -/
def pickFields (full : FullInfo) (keys : List FieldName) : JObj :=
  keys.foldl (fun acc f => jsInsert acc (fieldKey f) (fieldVal full f)) []

/-- Outcomes of the external lookups performed while collecting a snapshot
(each `runCommand` yields the trimmed stdout or `null` on failure;
`readPkgVersion` yields the manifest's version string or `null`;
`Date.now()` and `toISOString()` are read from the clock). -/
structure Env where
  exactTag : Option String
  describeTags : Option String
  revShort : Option String
  pkgVersion : Option String
  nowMs : Nat
  nowInstant : String
deriving DecidableEq

/-- JavaScript `a || b` for `a : string | null`: both `null` and the empty
string are falsy and select the fallback. -/
def jsOrStr (a : Option String) (b : String) : String :=
  match a with
  | none => b
  | some s => if s = "" then b else s

/-- `collectVersion(mode)` from index.ts: resolves `version` through the
`||` chain (exact tag, describe, short hash, `String(Date.now())`), looks
up `commitShort` independently, reads the manifest version, stamps the
time. -/
def collectVersion (env : Env) (mode : String) : FullInfo :=
  { version :=
      jsOrStr env.exactTag
        (jsOrStr env.describeTags
          (jsOrStr env.revShort (Nat.repr env.nowMs)))
    commitShort := env.revShort
    pkgVersion := env.pkgVersion
    buildTime := env.nowInstant
    mode := mode }

/-- `buildJson()` from index.ts: collect, project the configured public
fields, spread the extra fields, pretty-print, append a newline. -/
def buildJsonStr (env : Env) (mode : String) (publicFields : List FieldName)
    (extra : JObj) : String :=
  stringifyPretty (jsExtend (pickFields (collectVersion env mode) publicFields) extra)
    ++ "\n"

/-- `weakEtagFor(content)` from index.ts. The SHA-1 hex digest computed by
`node:crypto` is an external collaborator, passed in as the function `h`
(one fixed digest function per process). -/
def weakEtagFor (h : String → String) (content : String) : String :=
  "W/\"" ++ h content ++ "\""

/-- An HTTP-like response: status code, headers set, body text. -/
structure Response where
  status : Nat
  headers : List (String × String)
  body : String
deriving DecidableEq

/-- First-match association-list lookup over string pairs. -/
def lookupStr : List (String × String) → String → Option String
  | [], _ => none
  | q :: qs, k => if q.1 = k then some q.2 else lookupStr qs k

/-- Look up a response header. -/
def getHeader (r : Response) (k : String) : Option String :=
  lookupStr r.headers k

/-- The `try` block of the dev middleware in index.ts, given the JSON text
it decided to serve: set the six headers, compute the weak ETag, answer
304 with an empty body on an `If-None-Match` hit, else 200 with the body. -/
def serveJson (h : String → String) (json : String) (ifNoneMatch : Option String) :
    Response :=
  let etag := weakEtagFor h json
  let hs := [("Content-Type", "application/json; charset=utf-8"),
             ("Cache-Control", "no-store, no-cache, must-revalidate, max-age=0"),
             ("Pragma", "no-cache"),
             ("Expires", "0"),
             ("Vary", "If-None-Match"),
             ("ETag", etag)]
  if ifNoneMatch = some etag then ⟨304, hs, ""⟩ else ⟨200, hs, json⟩

/-- The whole middleware handler body: `Except.error msg` models an
exception with message `msg` thrown while building the response, which the
`catch` branch turns into a 500 with a pretty-printed error object. -/
def middlewareRespond (h : String → String) (body? : Except String String)
    (ifNoneMatch : Option String) : Response :=
  match body? with
  | .ok json => serveJson h json ifNoneMatch
  | .error msg => ⟨500, [], stringifyPretty [("error", .jstr msg)]⟩

/-- The Vite command the plugin was configured with. -/
inductive Command where
  | serve | build
deriving DecidableEq

/-- Plugin-instance configuration after `configResolved`. -/
structure Config where
  command : Command
  mode : String
  publicFields : List FieldName
  extra : JObj
deriving DecidableEq

/-- The plugin instance's mutable closure state (`lastJson`, `devJson`). -/
structure PState where
  lastJson : String
  devJson : String
deriving DecidableEq

/-- Initial closure state: both variables hold the empty-object artifact
`"\x7b\x7d\n"`. -/
def initPState : PState := ⟨"\x7b\x7d\n", "\x7b\x7d\n"⟩

/-- `buildJson()` from index.ts as a state transformer: computes the
artifact and stores it in `lastJson`. -/
def buildJsonS (env : Env) (cfg : Config) (st : PState) : PState × String :=
  let json := buildJsonStr env cfg.mode cfg.publicFields cfg.extra
  ({st with lastJson := json}, json)

/-- The dev middleware of index.ts: `command === "serve" ? devJson :
buildJson()` picks the served text, then the conditional-delivery logic
runs. Returns the response, the successor state, and the number of
snapshot refreshes (`buildJson()` calls) performed. -/
def middleware (h : String → String) (env : Env) (cfg : Config) (st : PState)
    (inm : Option String) : Response × PState × Nat :=
  if cfg.command = .serve then (serveJson h st.devJson inm, st, 0)
  else
    let (st1, json) := buildJsonS env cfg st
    (serveJson h json inm, st1, 1)

/-- Host lifecycle events relevant to the claims; `request` carries the
`If-None-Match` header of a dev-endpoint request. -/
inductive Event where
  | buildStart
  | load
  | genBundle
  | request (ifNoneMatch : Option String)

/-- One lifecycle step of the plugin in index.ts. Returns the new state,
the artifact text delivered to that event's consumer (the JSON inlined in
the virtual module for `load`, the emitted asset for `generateBundle`, the
response body for `request`), and how many snapshot refreshes
(`buildJson()` = collect + project + serialize) the step performed. -/
def step (h : String → String) (env : Env) (cfg : Config) (st : PState) :
    Event → PState × Option String × Nat
  | .buildStart =>
    let (st1, json) := buildJsonS env cfg st
    if cfg.command = .serve then ({st1 with devJson := json}, none, 1)
    else (st1, none, 1)
  | .load =>
    let json := if cfg.command = .serve then st.devJson else st.lastJson
    (st, some json, 0)
  | .genBundle =>
    let (st1, json) := buildJsonS env cfg st
    (st1, some json, 1)
  | .request inm =>
    let (resp, st1, n) := middleware h env cfg st inm
    (st1, some resp.body, n)

/-- Run a list of lifecycle events, collecting each step's delivered
artifact and summing the refresh counts. -/
def runTrace (h : String → String) (env : Env) (cfg : Config) :
    PState → List Event → PState × List (Option String) × Nat
  | st, [] => (st, [], 0)
  | st, ev :: evs =>
    let (st1, out, n) := step h env cfg st ev
    let (st2, outs, m) := runTrace h env cfg st1 evs
    (st2, out :: outs, n + m)

/-- The filesystem, modelled as an association list path ↦ file content. -/
abbrev FS := List (String × String)

/-- `fs.readFileSync` / `fs.existsSync` (`none` = file absent). -/
def fsRead : FS → String → Option String
  | [], _ => none
  | q :: qs, p => if q.1 = p then some q.2 else fsRead qs p

/-- `fs.writeFileSync`: replace the content of an existing path, create the
file otherwise. -/
def fsWrite : FS → String → String → FS
  | [], p, c => [(p, c)]
  | q :: qs, p, c => if q.1 = p then (q.1, c) :: qs else q :: fsWrite qs p c

/-- The record returned by `writeFileIfChanged`. -/
structure WriteResult where
  changed : Bool
  size : Nat
  hash : String
deriving DecidableEq

/-- `writeFileIfChanged(filePath, content)` from helper.ts with the SHA-256
hex digest passed in as `h`: hash the existing file (when present) and the
new content; rewrite only when the file is absent or the digests differ,
otherwise keep the existing file untouched and report `changed: false`. -/
def writeFileIfChanged (h : String → String) (fs : FS) (filePath content : String) :
    FS × WriteResult :=
  let existing := fsRead fs filePath
  let oldHash := existing.map h
  let newHash := h content
  if existing.isNone || oldHash ≠ some newHash then
    (fsWrite fs filePath content, ⟨true, content.utf8ByteSize, newHash⟩)
  else
    (fs, ⟨false, (existing.getD "").utf8ByteSize, newHash⟩)

/-- Result of one `checkVersion()` call in the emitted module. -/
structure CheckResult where
  updated : Bool
  latest : Option JObj
deriving DecidableEq

/-- Outcome of the `fetch` + `res.json()` pair inside `checkVersion`: the
network call may reject; otherwise the response carries its `ok` flag and
its body either parses to a JSON object or `res.json()` rejects. -/
inductive FetchOutcome where
  | netFail
  | resp (ok : Bool) (parsed : Option JObj)

/-- `onCheck(cb)` from the emitted module: pushes the callback onto
`listeners` (callbacks are opaque identities here, so the
`typeof cb === "function"` guard always holds). -/
def onCheckReg {α : Type} (listeners : List α) (cb : α) : List α :=
  listeners ++ [cb]

/-- The unsubscribe closure returned by `onCheck(cb)`:
`listeners = listeners.filter(fn => fn !== cb)`. -/
def unsubscribe {α : Type} [DecidableEq α] (listeners : List α) (cb : α) : List α :=
  listeners.filter fun fn => fn != cb

/-- `checkVersion()` from the emitted module code: on network failure, a
non-ok status, or a body that fails to parse, the result is
`\x7bupdated: false, latest: null\x7d`; on a parsed body `latest`, `updated`
is `JSON.stringify(latest) !== JSON.stringify(baseline)` where `baseline`
is the object literal inlined at module-load time. Every branch notifies
every listener with the result before returning it; the invocation list
(which listener received which result) is returned alongside. -/
def checkVersion {α : Type} (f : FetchOutcome) (baseline : JObj)
    (listeners : List α) : CheckResult × List (α × CheckResult) :=
  let notify := fun (r : CheckResult) => (r, listeners.map fun fn => (fn, r))
  match f with
  | .netFail => notify ⟨false, none⟩
  | .resp ok parsed =>
    if !ok then notify ⟨false, none⟩
    else
      match parsed with
      | none => notify ⟨false, none⟩
      | some latest =>
        notify ⟨stringifyCompact latest != stringifyCompact baseline, some latest⟩

/-! A decoder for the compact serialization. It is a proof device: decoding
is shown to invert `stringifyCompact`, which makes the serializer injective
— the fact that lets the emitted module's `JSON.stringify` comparison
decide equality of the underlying JSON values. -/

/-- Numeric value of a hexadecimal digit character (lowercase letters, as
emitted by `hexDigit`). -/
def hexVal (c : Char) : Option Nat :=
  if 48 ≤ c.toNat ∧ c.toNat ≤ 57 then some (c.toNat - 48)
  else if 97 ≤ c.toNat ∧ c.toNat ≤ 102 then some (c.toNat - 87)
  else none

/-- Parse the body of a JSON string literal (after the opening quote) up to
and including the closing quote; returns the decoded characters and the
remaining input. -/
def parseStrChars : List Char → Option (List Char × List Char)
  | [] => none
  | c :: rest =>
    if c = '"' then some ([], rest)
    else if c = '\\' then
      match rest with
      | [] => none
      | e :: rest2 =>
        if e = '"' then (parseStrChars rest2).map fun p => ('"' :: p.1, p.2)
        else if e = '\\' then (parseStrChars rest2).map fun p => ('\\' :: p.1, p.2)
        else if e = 'b' then (parseStrChars rest2).map fun p => ('\x08' :: p.1, p.2)
        else if e = 't' then (parseStrChars rest2).map fun p => ('\t' :: p.1, p.2)
        else if e = 'n' then (parseStrChars rest2).map fun p => ('\n' :: p.1, p.2)
        else if e = 'f' then (parseStrChars rest2).map fun p => ('\x0c' :: p.1, p.2)
        else if e = 'r' then (parseStrChars rest2).map fun p => ('\r' :: p.1, p.2)
        else if e = 'u' then
          match rest2 with
          | d1 :: d2 :: d3 :: d4 :: rest3 =>
            match hexVal d1, hexVal d2, hexVal d3, hexVal d4 with
            | some a, some b, some cv, some d =>
              (parseStrChars rest3).map fun p =>
                (Char.ofNat (((a * 16 + b) * 16 + cv) * 16 + d) :: p.1, p.2)
            | _, _, _, _ => none
          | _ => none
        else none
    else (parseStrChars rest).map fun p => (c :: p.1, p.2)

/-- Parse one JSON value of the fragment our objects serialize to: a string
literal or `null`. -/
def parseJVal : List Char → Option (JVal × List Char)
  | [] => none
  | c :: rest =>
    if c = '"' then (parseStrChars rest).map fun p => (JVal.jstr ⟨p.1⟩, p.2)
    else if c = 'n' then
      match rest with
      | 'u' :: 'l' :: 'l' :: rest2 => some (.jnull, rest2)
      | _ => none
    else none

/-- Parse a nonempty comma-separated pair list, consuming the final
closing brace; `fuel` bounds the number of pairs. -/
def parsePairsAux : Nat → List Char → Option (JObj × List Char)
  | 0, _ => none
  | _ + 1, [] => none
  | fuel + 1, c :: rest =>
    if c = '"' then
      match parseStrChars rest with
      | none => none
      | some (k, r1) =>
        match r1 with
        | ':' :: r2 =>
          match parseJVal r2 with
          | none => none
          | some (v, r3) =>
            match r3 with
            | ',' :: r4 => (parsePairsAux fuel r4).map fun p => ((⟨k⟩, v) :: p.1, p.2)
            | '\x7d' :: r4 => some ([(⟨k⟩, v)], r4)
            | _ => none
        | _ => none
    else none

/-- Parse a flat JSON object in compact form. -/
def parseObj (cs : List Char) : Option (JObj × List Char) :=
  match cs with
  | '\x7b' :: '\x7d' :: rest => some ([], rest)
  | '\x7b' :: rest => parsePairsAux rest.length rest
  | _ => none

/-- Character-level view of `quoteStr`. -/
def quoteChars (s : List Char) : List Char := '"' :: (escList s ++ ['"'])

/-- Character-level view of `serVal`. -/
def serValChars : JVal → List Char
  | .jstr s => quoteChars s.data
  | .jnull => ['n', 'u', 'l', 'l']

/-- Character-level view of the pair list of `stringifyCompact` together
with the separators and the terminating close brace. -/
def serPairsChars : JObj → List Char
  | [] => ['\x7d']
  | p :: ps =>
    quoteChars p.1.data ++ ':' :: serValChars p.2 ++
      (if ps.isEmpty then ['\x7d'] else ',' :: serPairsChars ps)

/-- Association-list lookup with string keys (first binding wins, matching
JavaScript property access on our duplicate-free objects). -/
def jsLookup : JObj → String → Option JVal
  | [], _ => none
  | p :: ps, k => if p.1 = k then some p.2 else jsLookup ps k

/-- A concrete snapshot (the spec scenario's snapshot). -/
def fullEx : FullInfo :=
  ⟨"v1.2.3", some "abc1234", some "0.1.0", "2025-01-01T00:00:00.000Z", "production"⟩

/-- A concrete lookup environment that collects to `fullEx`. -/
def envEx : Env :=
  ⟨some "v1.2.3", some "v1.2.3", some "abc1234", some "0.1.0",
    1735689600000, "2025-01-01T00:00:00.000Z"⟩

/-- The serve-command configuration used by the C1 theorem. -/
def cfgServeEx : Config := ⟨.serve, "development", [FieldName.version], []⟩

/-- Lookup environment at dev-server start: tag `v1`. -/
def envV1 : Env := ⟨some "v1", none, none, none, 0, "T"⟩

/-- Lookup environment at request time: tag moved to `v2`. -/
def envV2 : Env := ⟨some "v2", none, none, none, 0, "T"⟩

/-- The plugin state after `buildStart` ran against `envV1`. -/
def stAfterStart : PState :=
  (step (fun s => s) envV1 cfgServeEx initPState .buildStart).1

/-- The build-command configuration used by the C7 theorems. -/
def cfgBuildEx : Config := ⟨.build, "production", [FieldName.version], []⟩

end AppVersion



namespace AppVersion

theorem jsKeys_jsInsert (o : JObj) (k : String) (v : JVal) :
    jsKeys (jsInsert o k v) = if k ∈ jsKeys o then jsKeys o else jsKeys o ++ [k] := by
  unfold jsInsert
  split
  · simp only [if_pos ‹k ∈ jsKeys o›, jsKeys, List.map_map]
    apply List.map_congr_left
    intro p _
    by_cases h : p.1 = k <;> simp [h]
  · simp [jsKeys, ‹k ∉ jsKeys o›]

theorem mem_jsKeys_cons (k : String) (p : String × JVal) (ps : JObj) :
    k ∈ jsKeys (p :: ps) ↔ k = p.1 ∨ k ∈ jsKeys ps := by
  simp [jsKeys]

theorem jsLookup_update_self (o : JObj) (k : String) (v : JVal)
    (h : k ∈ jsKeys o) :
    jsLookup (o.map fun p => if p.1 = k then (p.1, v) else p) k = some v := by
  induction o with
  | nil => simp [jsKeys] at h
  | cons p ps ih =>
    by_cases hp : p.1 = k
    · simp [jsLookup, hp]
    · simp only [List.map_cons, if_neg hp, jsLookup, if_neg hp]
      rcases (mem_jsKeys_cons k p ps).mp h with h1 | h1
      · exact absurd h1.symm hp
      · exact ih h1

theorem jsLookup_update_ne (o : JObj) (k : String) (v : JVal) (k' : String)
    (hne : k' ≠ k) :
    jsLookup (o.map fun p => if p.1 = k then (p.1, v) else p) k'
      = jsLookup o k' := by
  have hkk : k ≠ k' := Ne.symm hne
  induction o with
  | nil => rfl
  | cons p ps ih =>
    by_cases hp' : p.1 = k'
    · have hpk : p.1 ≠ k := by rw [hp']; exact hne
      simp [jsLookup, hp', hpk, hne]
    · by_cases hpk : p.1 = k
      · simp [jsLookup, hp', hpk, hkk, ih]
      · simp [jsLookup, hp', hpk, ih]

theorem jsLookup_jsInsert_self (o : JObj) (k : String) (v : JVal) :
    jsLookup (jsInsert o k v) k = some v := by
  unfold jsInsert
  split
  case isTrue h => exact jsLookup_update_self o k v h
  case isFalse h =>
    induction o with
    | nil => simp [jsLookup]
    | cons p ps ih =>
      have hp : p.1 ≠ k := by
        intro hc; exact h ((mem_jsKeys_cons k p ps).mpr (Or.inl hc.symm))
      simp only [List.cons_append, jsLookup, if_neg hp]
      apply ih
      intro hc; exact h ((mem_jsKeys_cons k p ps).mpr (Or.inr hc))

theorem jsLookup_jsInsert_ne (o : JObj) (k : String) (v : JVal) (k' : String)
    (hne : k' ≠ k) : jsLookup (jsInsert o k v) k' = jsLookup o k' := by
  unfold jsInsert
  split
  · exact jsLookup_update_ne o k v k' hne
  case isFalse h =>
    induction o with
    | nil => simp [jsLookup, Ne.symm hne]
    | cons p ps ih =>
      have h2 : k ∉ jsKeys ps := fun hc => h ((mem_jsKeys_cons k p ps).mpr (Or.inr hc))
      by_cases hp' : p.1 = k'
      · simp [jsLookup, hp']
      · simp [jsLookup, hp', ih h2]

theorem jsExtend_cons (o : JObj) (p : String × JVal) (ps : JObj) :
    jsExtend o (p :: ps) = jsExtend (jsInsert o p.1 p.2) ps := rfl

theorem jsLookup_jsExtend_not_mem (o ps : JObj) (k : String)
    (h : k ∉ jsKeys ps) : jsLookup (jsExtend o ps) k = jsLookup o k := by
  induction ps generalizing o with
  | nil => rfl
  | cons q qs ih =>
    have h1 : k ≠ q.1 := by intro hc; exact h (by simp [jsKeys, hc])
    have h2 : k ∉ jsKeys qs := by intro hc; exact h (by simp [jsKeys] at hc ⊢; exact Or.inr hc)
    rw [jsExtend_cons, ih _ h2, jsLookup_jsInsert_ne _ _ _ _ h1]

theorem jsLookup_jsExtend_last (o : JObj) (ps : JObj) (k : String) (v : JVal)
    (hmem : (k, v) ∈ ps) (huniq : ∀ v', (k, v') ∈ ps → v' = v) :
    jsLookup (jsExtend o ps) k = some v := by
  induction ps generalizing o with
  | nil => cases hmem
  | cons q qs ih =>
    rw [jsExtend_cons]
    by_cases hq : k ∈ jsKeys qs
    · obtain ⟨p', hp', hfst⟩ := List.mem_map.mp hq
      obtain ⟨v'', hv''⟩ : ∃ v'', (k, v'') ∈ qs := ⟨p'.2, by rwa [show (k, p'.2) = p' from Prod.ext hfst.symm rfl]⟩
      have : v'' = v := huniq v'' (List.mem_cons_of_mem _ hv'')
      subst this
      exact ih _ hv'' (fun v' hv' => huniq v' (List.mem_cons_of_mem _ hv'))
    · rcases List.mem_cons.mp hmem with h | h
      · rw [jsLookup_jsExtend_not_mem _ _ _ hq, ← h]
        exact jsLookup_jsInsert_self o k v
      · exact absurd (List.mem_map_of_mem Prod.fst h) hq

theorem jsKeys_jsExtend_disjoint (o ps : JObj)
    (hnd : (jsKeys ps).Nodup) (hd : ∀ k ∈ jsKeys ps, k ∉ jsKeys o) :
    jsKeys (jsExtend o ps) = jsKeys o ++ jsKeys ps := by
  induction ps generalizing o with
  | nil => simp [jsExtend, jsKeys]
  | cons q qs ih =>
    have hq : q.1 ∉ jsKeys o := hd q.1 (by simp [jsKeys])
    have hnd' : (jsKeys qs).Nodup := (List.nodup_cons.mp hnd).2
    have hq' : q.1 ∉ jsKeys qs := (List.nodup_cons.mp hnd).1
    rw [jsExtend_cons, ih _ hnd']
    · rw [jsKeys_jsInsert, if_neg hq]
      simp [jsKeys]
    · intro k hk
      rw [jsKeys_jsInsert, if_neg hq]
      intro hc
      rcases List.mem_append.mp hc with h | h
      · exact hd k (by simp [jsKeys] at hk ⊢; exact Or.inr hk) h
      · simp at h
        subst h
        exact hq' hk

theorem jsKeys_jsExtend_subset (o ps : JObj) (k : String)
    (h : k ∈ jsKeys (jsExtend o ps)) : k ∈ jsKeys o ∨ k ∈ jsKeys ps := by
  induction ps generalizing o with
  | nil => exact Or.inl h
  | cons q qs ih =>
    rw [jsExtend_cons] at h
    rcases ih _ h with h1 | h1
    · rw [jsKeys_jsInsert] at h1
      split at h1
      · exact Or.inl h1
      · rcases List.mem_append.mp h1 with h2 | h2
        · exact Or.inl h2
        · simp at h2; subst h2; exact Or.inr (by simp [jsKeys])
    · exact Or.inr (by simp [jsKeys] at h1 ⊢; exact Or.inr h1)

theorem pickFields_eq_extend (full : FullInfo) (fields : List FieldName) :
    pickFields full fields
      = jsExtend [] (fields.map fun f => (fieldKey f, fieldVal full f)) := by
  unfold pickFields jsExtend
  rw [List.foldl_map]

theorem fieldKey_injective : ∀ a b : FieldName, fieldKey a = fieldKey b → a = b := by
  intro a b
  cases a <;> cases b <;> simp [fieldKey]

end AppVersion

namespace AppVersion

theorem hexVal_hexDigit : ∀ n < 16, hexVal (hexDigit n) = some n := by decide

theorem parseStrChars_escList (s rest : List Char) :
    parseStrChars (escList s ++ '"' :: rest) = some (s, rest) := by
  induction s with
  | nil =>
    show parseStrChars ('"' :: rest) = some ([], rest)
    rw [parseStrChars.eq_def]
    simp
  | cons c cs ih =>
    show parseStrChars ((escChar c ++ escList cs) ++ '"' :: rest) = _
    rw [List.append_assoc]
    by_cases h1 : c = '"'
    · subst h1
      show parseStrChars ('\\' :: '"' :: _) = _
      rw [parseStrChars.eq_def]
      simp [ih]
    · by_cases h2 : c = '\\'
      · subst h2
        show parseStrChars ('\\' :: '\\' :: _) = _
        rw [parseStrChars.eq_def]
        simp [ih]
      · by_cases h3 : c = '\x08'
        · subst h3
          show parseStrChars ('\\' :: 'b' :: _) = _
          rw [parseStrChars.eq_def]
          simp [ih]
        · by_cases h4 : c = '\t'
          · subst h4
            show parseStrChars ('\\' :: 't' :: _) = _
            rw [parseStrChars.eq_def]
            simp [ih]
          · by_cases h5 : c = '\n'
            · subst h5
              show parseStrChars ('\\' :: 'n' :: _) = _
              rw [parseStrChars.eq_def]
              simp [ih]
            · by_cases h6 : c = '\x0c'
              · subst h6
                show parseStrChars ('\\' :: 'f' :: _) = _
                rw [parseStrChars.eq_def]
                simp [ih]
              · by_cases h7 : c = '\r'
                · subst h7
                  show parseStrChars ('\\' :: 'r' :: _) = _
                  rw [parseStrChars.eq_def]
                  simp [ih]
                · by_cases h8 : c.toNat < 32
                  · have hd : c.toNat / 16 < 16 := by omega
                    have hm : c.toNat % 16 < 16 := Nat.mod_lt _ (by norm_num)
                    simp only [escChar, if_neg h1, if_neg h2, if_neg h3, if_neg h4,
                      if_neg h5, if_neg h6, if_neg h7, if_pos h8]
                    simp only [List.cons_append, List.nil_append]
                    rw [parseStrChars.eq_def]
                    have h0 : hexVal '0' = some 0 := by decide
                    simp [hexVal_hexDigit _ hd, hexVal_hexDigit _ hm, ih, h0]
                    rw [show c.toNat / 16 * 16 + c.toNat % 16 = c.toNat from by omega]
                    rw [Char.ofNat_toNat]
                  · have hesc : escChar c = [c] := by
                      simp [escChar, h1, h2, h3, h4, h5, h6, h7, h8]
                    rw [hesc]
                    simp only [List.cons_append, List.nil_append]
                    rw [parseStrChars.eq_def]
                    simp [h1, h2, ih]

end AppVersion

namespace AppVersion

theorem quoteStr_data (s : String) : (quoteStr s).data = quoteChars s.data := by
  simp [quoteStr, quoteChars, escape, String.data_append]

theorem serVal_data (v : JVal) : (serVal v).data = serValChars v := by
  cases v with
  | jstr s => simpa [serVal, serValChars] using quoteStr_data s
  | jnull => rfl

theorem parseJVal_serVal (v : JVal) (rest : List Char) :
    parseJVal (serValChars v ++ rest) = some (v, rest) := by
  cases v with
  | jstr s =>
    show parseJVal (('"' :: (escList s.data ++ ['"'])) ++ rest) = _
    rw [List.cons_append, List.append_assoc]
    rw [parseJVal.eq_def]
    simp [parseStrChars_escList]
  | jnull =>
    show parseJVal ('n' :: 'u' :: 'l' :: 'l' :: rest) = _
    rw [parseJVal.eq_def]
    simp

theorem parsePairsAux_ser (o : JObj) :
    ∀ (rest : List Char) (fuel : Nat), o ≠ [] → o.length ≤ fuel →
    parsePairsAux fuel (serPairsChars o ++ rest) = some (o, rest) := by
  induction o with
  | nil => intro rest fuel h _; exact absurd rfl h
  | cons p ps ih =>
    intro rest fuel _ hlen
    have hf : 1 ≤ fuel := le_trans (by simp) hlen
    obtain ⟨f, rfl⟩ : ∃ f, fuel = f + 1 := ⟨fuel - 1, by omega⟩
    by_cases hps : ps.isEmpty
    · have hps' : ps = [] := List.isEmpty_iff.mp hps
      subst hps'
      simp only [serPairsChars, if_pos hps, quoteChars]
      simp only [List.cons_append, List.append_assoc, List.nil_append]
      rw [parsePairsAux.eq_def]
      simp [parseStrChars_escList, parseJVal_serVal]
    · have hps' : ps ≠ [] := fun hc => by simp [hc] at hps
      have hlen' : ps.length ≤ f := by simp only [List.length_cons] at hlen; omega
      have hrec := ih rest f hps' hlen'
      simp only [serPairsChars, if_neg hps, quoteChars]
      simp only [List.cons_append, List.append_assoc, List.nil_append]
      rw [parsePairsAux.eq_def]
      simp [parseStrChars_escList, parseJVal_serVal, hrec]

theorem length_le_serPairsChars (o : JObj) : o.length ≤ (serPairsChars o).length := by
  induction o with
  | nil => simp [serPairsChars]
  | cons p ps ih =>
    by_cases h : ps.isEmpty
    · have hps' : ps = [] := List.isEmpty_iff.mp h
      subst hps'
      simp [serPairsChars, quoteChars, List.length_append]
    · simp only [serPairsChars, if_neg h, quoteChars]
      simp only [List.length_append, List.length_cons]
      omega

theorem joinComma_pairs_data (o : JObj) (hne : o ≠ []) :
    (joinComma (o.map fun p => quoteStr p.1 ++ ":" ++ serVal p.2)).data ++ ['\x7d']
      = serPairsChars o := by
  induction o with
  | nil => exact absurd rfl hne
  | cons p ps ih =>
    cases ps with
    | nil =>
      show ((quoteStr p.1 ++ ":" ++ serVal p.2)).data ++ ['\x7d'] = _
      simp [String.data_append, quoteStr_data, serVal_data, serPairsChars,
        show (":" : String).data = [':'] from rfl]
    | cons q qs =>
      show ((quoteStr p.1 ++ ":" ++ serVal p.2) ++ "," ++
        joinComma ((q :: qs).map fun r => quoteStr r.1 ++ ":" ++ serVal r.2)).data
          ++ ['\x7d'] = _
      rw [show serPairsChars (p :: q :: qs)
          = quoteChars p.1.data ++ ':' :: serValChars p.2 ++ ',' :: serPairsChars (q :: qs)
          from by simp [serPairsChars]]
      rw [← ih (by simp)]
      simp [String.data_append, quoteStr_data, serVal_data, List.append_assoc,
        show (":" : String).data = [':'] from rfl,
        show ("," : String).data = [','] from rfl]

theorem stringifyCompact_data (o : JObj) :
    (stringifyCompact o).data = '\x7b' :: serPairsChars o := by
  cases o with
  | nil => rfl
  | cons p ps =>
    show ("\x7b" ++ joinComma _ ++ "\x7d").data = _
    rw [String.data_append, String.data_append]
    rw [show ("\x7b" : String).data = ['\x7b'] from rfl,
        show ("\x7d" : String).data = ['\x7d'] from rfl]
    rw [List.append_assoc, List.cons_append, List.nil_append]
    rw [joinComma_pairs_data (p :: ps) (by simp)]

theorem parseObj_stringifyCompact (o : JObj) :
    parseObj (stringifyCompact o).data = some (o, []) := by
  rw [stringifyCompact_data]
  cases o with
  | nil => rfl
  | cons p ps =>
    obtain ⟨t, ht⟩ : ∃ t, serPairsChars (p :: ps) = '"' :: t :=
      ⟨escList p.1.data ++ ['"'] ++ (':' :: serValChars p.2 ++
        (if ps.isEmpty then ['\x7d'] else ',' :: serPairsChars ps)), by
        simp [serPairsChars, quoteChars, List.append_assoc]⟩
    rw [ht]
    show parsePairsAux (('"' :: t).length) ('"' :: t) = some (p :: ps, [])
    rw [← ht]
    have := parsePairsAux_ser (p :: ps) [] (serPairsChars (p :: ps)).length
      (by simp) (length_le_serPairsChars _)
    simpa using this

theorem stringifyCompact_injective (o1 o2 : JObj)
    (h : stringifyCompact o1 = stringifyCompact o2) : o1 = o2 := by
  have h1 := parseObj_stringifyCompact o1
  rw [congrArg String.data h, parseObj_stringifyCompact o2] at h1
  exact ((Prod.mk.injEq _ _ _ _).mp (Option.some.inj h1)).1.symm

end AppVersion

namespace AppVersion

theorem toDigitsCore_length_ge (b : Nat) :
    ∀ (f n : Nat) (l : List Char), l.length ≤ (Nat.toDigitsCore b f n l).length := by
  intro f
  induction f with
  | zero => intro n l; simp [Nat.toDigitsCore]
  | succ f ih =>
    intro n l
    rw [Nat.toDigitsCore]
    split
    · simp
    · exact le_trans (by simp) (ih (n / b) (Nat.digitChar (n % b) :: l))

theorem repr_ne_empty (n : Nat) : Nat.repr n ≠ "" := by
  intro h
  have hd : (Nat.repr n).data = [] := congrArg String.data h
  have h1 : 1 ≤ (Nat.toDigits 10 n).length := by
    rw [Nat.toDigits, Nat.toDigitsCore]
    split
    · simp
    · exact le_trans (by simp)
        (toDigitsCore_length_ge 10 n (n / 10) [Nat.digitChar (n % 10)])
  rw [show (Nat.repr n).data = Nat.toDigits 10 n from rfl] at hd
  rw [hd] at h1
  simp at h1

theorem jsOrStr_ne_empty (a : Option String) (b : String) (hb : b ≠ "") :
    jsOrStr a b ≠ "" := by
  unfold jsOrStr
  match a with
  | none => exact hb
  | some s =>
    by_cases hs : s = ""
    · simp [hs, hb]
    · simp [hs]

theorem jsOrStr_truthy (t : String) (b : String) (ht : t ≠ "") :
    jsOrStr (some t) b = t := by
  simp [jsOrStr, ht]

theorem jsOrStr_falsy (a : Option String) (b : String)
    (ha : a = none ∨ a = some "") : jsOrStr a b = b := by
  rcases ha with h | h <;> simp [h, jsOrStr]

/-- C5: for every outcome of the external lookups and every mode,
`collectVersion` is total (every fallible lookup degrades to an
`Option`) and yields a non-empty `version`, resolved in the order: exact
tag match, nearest tag description, short revision hash, then
`String(Date.now())`; a lookup is skipped exactly when it failed (`null`)
or returned the falsy empty string. -/
theorem collectVersion_version_resolution (env : Env) (mode : String) :
    (collectVersion env mode).version ≠ "" ∧
    (∀ t, env.exactTag = some t → t ≠ "" →
      (collectVersion env mode).version = t) ∧
    (∀ t, (env.exactTag = none ∨ env.exactTag = some "") →
      env.describeTags = some t → t ≠ "" →
      (collectVersion env mode).version = t) ∧
    (∀ t, (env.exactTag = none ∨ env.exactTag = some "") →
      (env.describeTags = none ∨ env.describeTags = some "") →
      env.revShort = some t → t ≠ "" →
      (collectVersion env mode).version = t) ∧
    ((env.exactTag = none ∨ env.exactTag = some "") →
      (env.describeTags = none ∨ env.describeTags = some "") →
      (env.revShort = none ∨ env.revShort = some "") →
      (collectVersion env mode).version = Nat.repr env.nowMs) := by
  refine ⟨?_, ?_, ?_, ?_, ?_⟩
  · exact jsOrStr_ne_empty _ _ (jsOrStr_ne_empty _ _ (jsOrStr_ne_empty _ _ (repr_ne_empty _)))
  · intro t ht htne
    simp [collectVersion, ht, jsOrStr_truthy t _ htne]
  · intro t h1 h2 h2ne
    simp [collectVersion, jsOrStr_falsy _ _ h1, h2, jsOrStr_truthy t _ h2ne]
  · intro t h1 h2 h3 h3ne
    simp [collectVersion, jsOrStr_falsy _ _ h1, jsOrStr_falsy _ _ h2, h3,
      jsOrStr_truthy t _ h3ne]
  · intro h1 h2 h3
    simp [collectVersion, jsOrStr_falsy _ _ h1, jsOrStr_falsy _ _ h2,
      jsOrStr_falsy _ _ h3]

/-- Witness for C5 at concrete environments. -/
theorem collectVersion_version_resolution_witness :
    (collectVersion envEx "production").version ≠ "" ∧
    (collectVersion envEx "production").version = "v1.2.3" ∧
    (collectVersion ⟨none, none, none, none, 123, "t"⟩ "m").version = Nat.repr 123 := by
  refine ⟨(collectVersion_version_resolution envEx "production").1, ?_, ?_⟩
  · exact (collectVersion_version_resolution envEx "production").2.1 "v1.2.3" rfl (by decide)
  · exact (collectVersion_version_resolution _ "m").2.2.2.2
      (Or.inl rfl) (Or.inl rfl) (Or.inl rfl)

/-- C2: the fingerprint is a pure function of the served body's bytes; a
request presenting exactly that fingerprint in `If-None-Match` gets 304
with an empty body; any other request gets 200 with the full body; the
`ETag` header always carries the computed fingerprint. -/
theorem serveJson_conditional_delivery (h : String → String) (json : String)
    (inm : Option String) :
    (getHeader (serveJson h json inm) "ETag" = some (weakEtagFor h json)) ∧
    (inm = some (weakEtagFor h json) →
      (serveJson h json inm).status = 304 ∧ (serveJson h json inm).body = "") ∧
    (inm ≠ some (weakEtagFor h json) →
      (serveJson h json inm).status = 200 ∧ (serveJson h json inm).body = json) ∧
    (∀ json2 : String, json.data = json2.data →
      weakEtagFor h json = weakEtagFor h json2) := by
  refine ⟨?_, ?_, ?_, ?_⟩
  · simp only [serveJson]
    split <;> simp [getHeader, lookupStr]
  · intro hm
    simp only [serveJson]
    rw [if_pos hm]
    exact ⟨rfl, rfl⟩
  · intro hm
    simp only [serveJson]
    rw [if_neg hm]
    exact ⟨rfl, rfl⟩
  · intro json2 hdata
    rw [String.ext hdata]

/-- Witness for C2: a stale fingerprint gets 200 with the body, the exact
fingerprint gets 304 with an empty body. -/
theorem serveJson_conditional_delivery_witness :
    ((serveJson (fun s => s) "x" (some (weakEtagFor (fun s => s) "x"))).status = 304 ∧
      (serveJson (fun s => s) "x" (some (weakEtagFor (fun s => s) "x"))).body = "") ∧
    ((serveJson (fun s => s) "x" (some "stale")).status = 200 ∧
      (serveJson (fun s => s) "x" (some "stale")).body = "x") := by
  exact ⟨(serveJson_conditional_delivery (fun s => s) "x" _).2.1 rfl,
    (serveJson_conditional_delivery (fun s => s) "x" (some "stale")).2.2.1 (by decide)⟩

/-- C9: an exception thrown while building a response is answered as a 500
whose body is the pretty-printed structured object containing the failure
message, never re-raised to the host. -/
theorem middleware_error_structured_500 (h : String → String) (msg : String)
    (inm : Option String) :
    (middlewareRespond h (.error msg) inm).status = 500 ∧
    (middlewareRespond h (.error msg) inm).body
      = stringifyPretty [("error", .jstr msg)] ∧
    (middlewareRespond h (.error msg) inm).status ≠ 200 ∧
    (middlewareRespond h (.error msg) inm).status ≠ 304 := by
  exact ⟨rfl, rfl, by simp [middlewareRespond], by simp [middlewareRespond]⟩

end AppVersion

namespace AppVersion

theorem fsRead_fsWrite_self (fs : FS) (p c : String) :
    fsRead (fsWrite fs p c) p = some c := by
  induction fs with
  | nil => simp [fsRead, fsWrite]
  | cons q qs ih =>
    by_cases hq : q.1 = p
    · simp [fsRead, fsWrite, hq]
    · simp [fsRead, fsWrite, hq, ih]

/-- C8: writing through `writeFileIfChanged` is idempotent at the content
level: when the file already holds byte-identical content the write is
skipped (`changed: false`, filesystem untouched); when the file is absent
or holds different content (the SHA-256 digests being injective models
collision resistance) the content is written and reported `changed: true`. -/
theorem writeFileIfChanged_content_idempotent (h : String → String) (fs : FS)
    (p c : String) :
    (fsRead fs p = some c →
      writeFileIfChanged h fs p c = (fs, ⟨false, c.utf8ByteSize, h c⟩)) ∧
    (fsRead fs p = none →
      (writeFileIfChanged h fs p c).1 = fsWrite fs p c ∧
      (writeFileIfChanged h fs p c).2.changed = true ∧
      fsRead ((writeFileIfChanged h fs p c).1) p = some c) ∧
    (Function.Injective h → ∀ old, fsRead fs p = some old → old ≠ c →
      (writeFileIfChanged h fs p c).1 = fsWrite fs p c ∧
      (writeFileIfChanged h fs p c).2.changed = true ∧
      fsRead ((writeFileIfChanged h fs p c).1) p = some c) := by
  refine ⟨?_, ?_, ?_⟩
  · intro hr
    simp [writeFileIfChanged, hr]
  · intro hr
    simp [writeFileIfChanged, hr, fsRead_fsWrite_self]
  · intro hinj old hr hne
    have : h old ≠ h c := fun hc => hne (hinj hc)
    simp [writeFileIfChanged, hr, this, fsRead_fsWrite_self]

/-- Witness for C8 on a concrete filesystem with the identity digest. -/
theorem writeFileIfChanged_content_idempotent_witness :
    (writeFileIfChanged (fun s => s) [("a", "x")] "a" "x"
      = ([("a", "x")], ⟨false, 1, "x"⟩)) ∧
    ((writeFileIfChanged (fun s => s) [("a", "x")] "a" "y").1
      = fsWrite [("a", "x")] "a" "y" ∧
     (writeFileIfChanged (fun s => s) [("a", "x")] "a" "y").2.changed = true ∧
     fsRead ((writeFileIfChanged (fun s => s) [("a", "x")] "a" "y").1) "a" = some "y") := by
  refine ⟨?_, ?_⟩
  · exact (writeFileIfChanged_content_idempotent (fun s => s) [("a", "x")] "a" "x").1
      (by decide)
  · exact (writeFileIfChanged_content_idempotent (fun s => s) [("a", "x")] "a" "y").2.2
      (fun a b hab => hab) "x" (by decide) (by decide)

/-- C10: `onCheck` registers the callback and leaves earlier registrations
in place; every registered callback is invoked with the result of every
check; the unsubscribe operation is a no-op when its callback is not
registered, and running the same unsubscribe twice equals running it
once. -/
theorem onCheck_subscription {α : Type} [DecidableEq α] (l : List α) (cb : α)
    (f : FetchOutcome) (baseline : JObj) :
    cb ∈ onCheckReg l cb ∧
    (∀ x ∈ l, x ∈ onCheckReg l cb) ∧
    (∀ x ∈ l, (x, (checkVersion f baseline l).1) ∈ (checkVersion f baseline l).2) ∧
    (cb ∉ l → unsubscribe l cb = l) ∧
    unsubscribe (unsubscribe l cb) cb = unsubscribe l cb := by
  refine ⟨?_, ?_, ?_, ?_, ?_⟩
  · simp [onCheckReg]
  · intro x hx
    simp [onCheckReg, hx]
  · intro x hx
    match f with
    | .netFail => exact List.mem_map_of_mem _ hx
    | .resp ok parsed =>
      cases ok with
      | false => exact List.mem_map_of_mem _ hx
      | true =>
        cases parsed with
        | none => exact List.mem_map_of_mem _ hx
        | some latest => exact List.mem_map_of_mem _ hx
  · intro hcb
    unfold unsubscribe
    apply List.filter_eq_self.mpr
    intro x hx
    have : x ≠ cb := fun hc => hcb (hc ▸ hx)
    simpa using this
  · unfold unsubscribe
    rw [List.filter_filter]
    simp

/-- Witness for C10 at concrete callbacks. -/
theorem onCheck_subscription_witness :
    unsubscribe [1, 2] 3 = [1, 2] ∧
    (1, (checkVersion FetchOutcome.netFail [] [1, 2]).1)
      ∈ (checkVersion FetchOutcome.netFail [] [1, 2]).2 := by
  exact ⟨(onCheck_subscription [1, 2] 3 FetchOutcome.netFail []).2.2.2.1 (by decide),
    (onCheck_subscription [1, 2] 3 FetchOutcome.netFail []).2.2.1 1 (by decide)⟩

/-- C6: `checkVersion` never raises (it is a total function of the fetch
outcome): network failure, a non-ok status, and an unparsable body all
yield `updated: false` with no `latest`; a parsed body equal to the
module-load baseline yields `updated: false` with that object; a parsed
body that differs yields `updated: true` with that object (the source's
`JSON.stringify` comparison decides value equality because the compact
serialization is injective). -/
theorem checkVersion_update_detection {α : Type} (baseline : JObj)
    (listeners : List α) :
    (checkVersion (α := α) .netFail baseline listeners).1
      = ⟨false, none⟩ ∧
    (∀ parsed, (checkVersion (α := α) (.resp false parsed) baseline listeners).1
      = ⟨false, none⟩) ∧
    (checkVersion (α := α) (.resp true none) baseline listeners).1
      = ⟨false, none⟩ ∧
    (∀ v, v = baseline →
      (checkVersion (α := α) (.resp true (some v)) baseline listeners).1
        = ⟨false, some v⟩) ∧
    (∀ v, v ≠ baseline →
      (checkVersion (α := α) (.resp true (some v)) baseline listeners).1
        = ⟨true, some v⟩) := by
  refine ⟨rfl, fun parsed => rfl, rfl, ?_, ?_⟩
  · intro v hv
    subst hv
    simp [checkVersion]
  · intro v hv
    have hne : stringifyCompact v ≠ stringifyCompact baseline :=
      fun hc => hv (stringifyCompact_injective v baseline hc)
    simp [checkVersion, hne]

/-- Witness for C6: same value ⇒ not updated, different value ⇒ updated. -/
theorem checkVersion_update_detection_witness :
    (checkVersion (α := Nat) (.resp true (some [("version", .jstr "1")]))
      [("version", .jstr "1")] [0]).1 = ⟨false, some [("version", .jstr "1")]⟩ ∧
    (checkVersion (α := Nat) (.resp true (some [("version", .jstr "2")]))
      [("version", .jstr "1")] [0]).1 = ⟨true, some [("version", .jstr "2")]⟩ := by
  exact ⟨(checkVersion_update_detection [("version", .jstr "1")] [0]).2.2.2.1 _ rfl,
    (checkVersion_update_detection [("version", .jstr "1")] [0]).2.2.2.2 _ (by decide)⟩

end AppVersion

namespace AppVersion

theorem jsKeys_nodup_val_eq (ps : JObj) (hnd : (jsKeys ps).Nodup) (k : String)
    (v v' : JVal) (h1 : (k, v) ∈ ps) (h2 : (k, v') ∈ ps) : v' = v := by
  induction ps with
  | nil => cases h1
  | cons q qs ih =>
    have hq : q.1 ∉ jsKeys qs := (List.nodup_cons.mp hnd).1
    rcases List.mem_cons.mp h1 with ha | ha <;> rcases List.mem_cons.mp h2 with hb | hb
    · rw [← hb] at ha; exact (congrArg Prod.snd ha).symm
    · exfalso
      apply hq
      have hk : k ∈ jsKeys qs := by
        simpa [jsKeys] using List.mem_map_of_mem Prod.fst hb
      rw [← ha]
      exact hk
    · exfalso
      apply hq
      have hk : k ∈ jsKeys qs := by
        simpa [jsKeys] using List.mem_map_of_mem Prod.fst ha
      rw [← hb]
      exact hk
    · exact ih (List.nodup_cons.mp hnd).2 ha hb

theorem jsKeys_fieldPairs (full : FullInfo) (fields : List FieldName) :
    jsKeys (fields.map fun f => (fieldKey f, fieldVal full f))
      = fields.map fieldKey := by
  simp [jsKeys, List.map_map, Function.comp]

theorem jsKeys_pickFields (full : FullInfo) (fields : List FieldName)
    (h : (fields.map fieldKey).Nodup) :
    jsKeys (pickFields full fields) = fields.map fieldKey := by
  rw [pickFields_eq_extend, jsKeys_jsExtend_disjoint]
  · simp [jsKeys, List.map_map, Function.comp]
  · rwa [jsKeys_fieldPairs]
  · intro k _
    simp [jsKeys]

/-- C3 (amended): in the projection followed by the extra-field spread,
(i) a key absent from both the field list and the extras never appears;
(ii) an extra pair always wins for its key (last-write-wins), including
when it names a projected snapshot field; (iii) a projected field not
overridden keeps the snapshot's value; and (iv) when the field names are
pairwise distinct and the extras' keys are distinct and disjoint from the
field names, the output key order is exactly the field list followed by
the extras' keys in insertion order. (A same-named extra key keeps the
field's position instead of being appended, which is what limits (iv) to
disjoint keys.) -/
theorem projection_key_order (full : FullInfo) (fields : List FieldName)
    (extra : JObj) (hext : (jsKeys extra).Nodup) :
    (∀ k, k ∈ jsKeys (jsExtend (pickFields full fields) extra) →
      k ∈ fields.map fieldKey ∨ k ∈ jsKeys extra) ∧
    (∀ k v, (k, v) ∈ extra →
      jsLookup (jsExtend (pickFields full fields) extra) k = some v) ∧
    (∀ f ∈ fields, fieldKey f ∉ jsKeys extra →
      jsLookup (jsExtend (pickFields full fields) extra) (fieldKey f)
        = some (fieldVal full f)) ∧
    ((fields.map fieldKey).Nodup →
      (∀ k ∈ jsKeys extra, k ∉ fields.map fieldKey) →
      jsKeys (jsExtend (pickFields full fields) extra)
        = fields.map fieldKey ++ jsKeys extra) := by
  refine ⟨?_, ?_, ?_, ?_⟩
  · intro k hk
    rcases jsKeys_jsExtend_subset _ _ _ hk with h1 | h1
    · left
      rw [pickFields_eq_extend] at h1
      rcases jsKeys_jsExtend_subset _ _ _ h1 with h2 | h2
      · simp [jsKeys] at h2
      · rwa [jsKeys_fieldPairs] at h2
    · exact Or.inr h1
  · intro k v hkv
    exact jsLookup_jsExtend_last _ _ _ _ hkv
      (fun v' hv' => jsKeys_nodup_val_eq extra hext k v v' hkv hv')
  · intro f hf hnotin
    rw [jsLookup_jsExtend_not_mem _ _ _ hnotin, pickFields_eq_extend]
    apply jsLookup_jsExtend_last
    · exact List.mem_map_of_mem _ hf
    · intro v' hv'
      obtain ⟨f', hf', heq⟩ := List.mem_map.mp hv'
      have h1 : fieldKey f' = fieldKey f := congrArg Prod.fst heq
      have h2 : f' = f := fieldKey_injective f' f h1
      subst h2
      exact (congrArg Prod.snd heq).symm
  · intro hfld hdisj
    rw [jsKeys_jsExtend_disjoint _ _ hext, jsKeys_pickFields full fields hfld]
    intro k hk
    rw [jsKeys_pickFields full fields hfld]
    exact hdisj k hk

/-- C3 counterexample: with `fields = [version]` and an extra pair also
keyed `"version"`, the output holds the key once (at the field position,
with the extra's value), so the output key order is not the field list
concatenated with the extras' keys. -/
theorem projection_key_order_counterexample :
    jsExtend (pickFields fullEx [FieldName.version]) [("version", JVal.jstr "x")]
      = [("version", JVal.jstr "x")] ∧
    ¬ (jsKeys (jsExtend (pickFields fullEx [FieldName.version])
          [("version", JVal.jstr "x")])
        = [FieldName.version].map fieldKey
            ++ jsKeys [("version", JVal.jstr "x")]) := by
  exact ⟨by decide, by decide⟩

/-- Witness for C3 at a concrete projection with a disjoint extra pair. -/
theorem projection_key_order_witness :
    jsLookup (jsExtend (pickFields fullEx [FieldName.version, FieldName.buildTime])
        [("env", JVal.jstr "dev")]) "env" = some (JVal.jstr "dev") ∧
    jsKeys (jsExtend (pickFields fullEx [FieldName.version, FieldName.buildTime])
        [("env", JVal.jstr "dev")]) = ["version", "buildTime", "env"] := by
  refine ⟨(projection_key_order fullEx [FieldName.version, FieldName.buildTime]
      [("env", JVal.jstr "dev")] (by decide)).2.1 "env" (JVal.jstr "dev") (by decide), ?_⟩
  have h := (projection_key_order fullEx [FieldName.version, FieldName.buildTime]
      [("env", JVal.jstr "dev")] (by decide)).2.2.2 (by decide) (by decide)
  exact h.trans (by decide)

end AppVersion

namespace AppVersion

/-- C4 counterexample: the serialized projection of the scenario snapshot
is not the compact text the claim states. -/
theorem scenario_serialization_counterexample :
    stringifyPretty (jsExtend (pickFields fullEx
        [FieldName.version, FieldName.buildTime]) []) ++ "\n"
      ≠ "\x7b\"version\":\"v1.2.3\",\"buildTime\":\"2025-01-01T00:00:00.000Z\"\x7d\n" := by
  decide

/-- C4 (amended): projecting `["version","buildTime"]` out of the scenario
snapshot and serializing it yields the pretty-printed two-space-indented
object followed by a trailing newline, and the full `buildJson()` on an
environment that collects to that snapshot produces the same text. -/
theorem scenario_serialization :
    stringifyPretty (jsExtend (pickFields fullEx
        [FieldName.version, FieldName.buildTime]) []) ++ "\n"
      = "\x7b\n  \"version\": \"v1.2.3\",\n  \"buildTime\": \"2025-01-01T00:00:00.000Z\"\n\x7d\n"
    ∧ buildJsonStr envEx "production" [FieldName.version, FieldName.buildTime] []
      = "\x7b\n  \"version\": \"v1.2.3\",\n  \"buildTime\": \"2025-01-01T00:00:00.000Z\"\n\x7d\n" := by
  exact ⟨by decide, by decide⟩

/-- C1: in serve command the middleware performs zero snapshot refreshes
and answers from the `devJson` cached at `buildStart`: after the tag moved
from `v1` to `v2`, the served body still is the `v1` artifact and differs
from what a refresh at request time would produce. -/
theorem serve_request_uses_cached_snapshot :
    (middleware (fun s => s) envV2 cfgServeEx stAfterStart none).2.2 = 0 ∧
    (middleware (fun s => s) envV2 cfgServeEx stAfterStart none).1.status = 200 ∧
    (middleware (fun s => s) envV2 cfgServeEx stAfterStart none).1.body
      = stAfterStart.devJson ∧
    stAfterStart.devJson = buildJsonStr envV1 "development" [FieldName.version] [] ∧
    stAfterStart.devJson ≠ buildJsonStr envV2 "development" [FieldName.version] [] := by
  refine ⟨rfl, by decide, by decide, by decide, by decide⟩

/-- C7 counterexample: a one-shot build pass (`buildStart` then
`generateBundle`) performs two snapshot refreshes, not exactly one. -/
theorem build_pass_refresh_counterexample :
    (runTrace (fun s => s) envEx cfgBuildEx initPState
        [Event.buildStart, Event.genBundle]).2.2 = 2 ∧
    (runTrace (fun s => s) envEx cfgBuildEx initPState
        [Event.buildStart, Event.genBundle]).2.2 ≠ 1 := by
  exact ⟨by decide, by decide⟩

theorem runTrace_loads_bundle (h : String → String) (env : Env) (cfg : Config)
    (hcmd : cfg.command = .build) :
    ∀ (n : Nat) (st : PState),
    runTrace h env cfg st (List.replicate n Event.load ++ [Event.genBundle])
      = (⟨buildJsonStr env cfg.mode cfg.publicFields cfg.extra, st.devJson⟩,
         List.replicate n (some st.lastJson)
           ++ [some (buildJsonStr env cfg.mode cfg.publicFields cfg.extra)],
         1) := by
  intro n
  induction n with
  | zero =>
    intro st
    simp [runTrace, step, buildJsonS]
  | succ n ih =>
    intro st
    simp [List.replicate_succ, runTrace, step, hcmd, ih st]

/-- C7 (amended): in a build pass the snapshot refresh runs exactly twice
— once at `buildStart` and once at `generateBundle` — while every
virtual-module load in between receives the stored `lastJson` without
recomputation; before any refresh the stored artifact is the empty-object
artifact, whose object part parses to the empty object. -/
theorem build_pass_refresh_twice (h : String → String) (env : Env) (cfg : Config)
    (hcmd : cfg.command = .build) (n : Nat) :
    runTrace h env cfg initPState
        ([Event.buildStart] ++ List.replicate n Event.load ++ [Event.genBundle])
      = (⟨buildJsonStr env cfg.mode cfg.publicFields cfg.extra, initPState.devJson⟩,
         none :: (List.replicate n
             (some (buildJsonStr env cfg.mode cfg.publicFields cfg.extra))
           ++ [some (buildJsonStr env cfg.mode cfg.publicFields cfg.extra)]),
         2) ∧
    initPState.lastJson = "\x7b\x7d\n" ∧
    parseObj initPState.lastJson.data = some ([], ['\n']) := by
  refine ⟨?_, rfl, by decide⟩
  have hl := runTrace_loads_bundle h env cfg hcmd n
    ⟨buildJsonStr env cfg.mode cfg.publicFields cfg.extra, initPState.devJson⟩
  simp [runTrace, step, buildJsonS, hcmd, initPState] at hl ⊢
  simp [hl]

/-- Witness for C7 at a concrete build configuration with one load. -/
theorem build_pass_refresh_twice_witness :
    runTrace (fun s => s) envEx cfgBuildEx initPState
        ([Event.buildStart] ++ List.replicate 1 Event.load ++ [Event.genBundle])
      = (⟨buildJsonStr envEx "production" [FieldName.version] [], "\x7b\x7d\n"⟩,
         [none, some (buildJsonStr envEx "production" [FieldName.version] []),
          some (buildJsonStr envEx "production" [FieldName.version] [])],
         2) := by
  have h := (build_pass_refresh_twice (fun s => s) envEx cfgBuildEx rfl 1).1
  exact h.trans (by simp [cfgBuildEx, initPState])

end AppVersion
